import Mathlib

/-!
Verification development for the citation-preserving chunk-extraction and
sentence-scoring core of `fast-graphrag-citations`.

The Python sources embedded here are
`fast_graphrag/_services/_chunk_extraction.py` (sentence splitting via the
regex `SENTENCE_PATTERN`, offset bookkeeping, chunk merging, overlap
enforcement, per-document deduplication) and
`fast_graphrag/_services/_scoring_utils.py` (`score_sentences_in_chunk`).

Strings are modelled as `List Char` (Python `str` is a sequence of code
points).  Python `int` offsets that can go negative are modelled as `Int`;
positions inside a text are `Nat`.  The `xxhash` content hash is an opaque
parameter `hashFn`.  Python `float` scores are modelled as exact rationals
(the decimal weights 0.6 / 0.3 / 0.1 of the source become 6/10, 3/10, 1/10).
-/

namespace FastGraphRAG

/-- Python `str.isspace` / regex `\s` character class (Unicode whitespace).
Covers the whitespace code points recognised by CPython. -/
def isPySpace (c : Char) : Bool :=
  c == ' ' || c == '\t' || c == '\n' || c == '\r' ||
  c.toNat == 0x0b || c.toNat == 0x0c ||
  (0x1c ≤ c.toNat && c.toNat ≤ 0x1f) || c.toNat == 0x85 || c.toNat == 0xa0 ||
  c.toNat == 0x1680 || (0x2000 ≤ c.toNat && c.toNat ≤ 0x200a) ||
  c.toNat == 0x2028 || c.toNat == 0x2029 || c.toNat == 0x202f ||
  c.toNat == 0x205f || c.toNat == 0x3000

/-- The sentence-ending punctuation of `SENTENCE_PATTERN`:
`(?<=\.|\?|\!|\。|\？|\！|\．)`. -/
def isPunct (c : Char) : Bool :=
  c == '.' || c == '?' || c == '!' || c == '。' || c == '？' || c == '！' || c == '．'

/-- ASCII `[A-Z]`. -/
def isUpperAZ (c : Char) : Bool := decide ('A' ≤ c) && decide (c ≤ 'Z')

/-- ASCII `[a-z]`. -/
def isLowerAZ (c : Char) : Bool := decide ('a' ≤ c) && decide (c ≤ 'z')

/-- Regex `\w` (word character).  Exact for ASCII; characters above
U+007F are treated as word characters unless they are whitespace or
sentence punctuation, matching Python's Unicode `\w` on the character
ranges exercised here. -/
def isWordChar (c : Char) : Bool :=
  isUpperAZ c || isLowerAZ c || (decide ('0' ≤ c) && decide (c ≤ '9')) || c == '_' ||
  (decide (128 ≤ c.toNat) && !isPySpace c && !isPunct c)

/-- Python slice `l[a:b]` for `0 ≤ a ≤ b`. -/
def pySlice (l : List Char) (a b : Nat) : List Char := (l.drop a).take (b - a)

/-- Python `str.strip()`: remove leading and trailing whitespace. -/
def pyStrip (l : List Char) : List Char :=
  ((l.dropWhile isPySpace).reverse.dropWhile isPySpace).reverse

/-- `leadsWith pat hay` holds when `pat` is an initial segment of `hay`. -/
def leadsWith : List Char → List Char → Bool
  | [], _ => true
  | _ :: _, [] => false
  | a :: as, b :: bs => a == b && leadsWith as bs

/-- First index at which `pat` occurs as a contiguous substring of `hay`
(Python `str.find` / `re.search` of an escaped literal). -/
def findSub (pat : List Char) : List Char → Option Nat
  | [] => if leadsWith pat [] then some 0 else none
  | c :: t => if leadsWith pat (c :: t) then some 0 else (findSub pat t).map (· + 1)

/-- Length of the maximal whitespace run starting at position `p`
(the greedy `\s+` of `SENTENCE_PATTERN`). -/
def wsRunLen (text : List Char) (p : Nat) : Nat :=
  ((text.drop p).takeWhile isPySpace).length

/-- The zero-width condition of `SENTENCE_PATTERN` at position `p`:
the positive lookbehind on sentence punctuation and the two negative
lookbehinds `(?<!\w\.\w.)` and `(?<![A-Z][a-z]\.)`. -/
def boundaryOk (text : List Char) (p : Nat) : Bool :=
  decide (1 ≤ p) && isPunct (text.getD (p - 1) ' ') &&
  !(decide (3 ≤ p) && isUpperAZ (text.getD (p - 3) ' ') &&
    isLowerAZ (text.getD (p - 2) ' ') && (text.getD (p - 1) ' ' == '.')) &&
  !(decide (4 ≤ p) && isWordChar (text.getD (p - 4) ' ') &&
    (text.getD (p - 3) ' ' == '.') && isWordChar (text.getD (p - 2) ' '))

/-- Leftmost match of `SENTENCE_PATTERN` at a position `q ≥` the start
position: returns the match position and the length of the consumed
whitespace run (`0` exactly for the end-of-string `$` branch). -/
def findMatchAux (text : List Char) : Nat → Nat → Option (Nat × Nat)
  | _, 0 => none
  | q, fuel + 1 =>
    if text.length < q then none
    else if boundaryOk text q then
      let k := wsRunLen text q
      if k ≠ 0 ∨ q = text.length then some (q, k)
      else findMatchAux text (q + 1) fuel
    else findMatchAux text (q + 1) fuel

/-- Search for the next `SENTENCE_PATTERN` match from position `p`. -/
def findMatch (text : List Char) (p : Nat) : Option (Nat × Nat) :=
  findMatchAux text p (text.length + 1 - p)

/-- Scanner behind `re.split(SENTENCE_PATTERN, text)`: pieces alternate
with the captured separators, and a zero-width match at the end of the
string contributes an empty separator and an empty final piece. -/
def reSplitAux (text : List Char) : Nat → Nat → List (List Char)
  | start, 0 => [pySlice text start text.length]
  | start, fuel + 1 =>
    match findMatch text start with
    | none => [pySlice text start text.length]
    | some (q, k) =>
      if k = 0 then [pySlice text start q, [], []]
      else pySlice text start q :: pySlice text q (q + k) :: reSplitAux text (q + k) fuel

/-- `re.split(SENTENCE_PATTERN, text)` with the capture group included. -/
def reSplit (text : List Char) : List (List Char) :=
  reSplitAux text 0 (text.length + 2)

/-- The index-walking loop of `extract_sentences`: a piece with content
absorbs a following pure-whitespace separator. -/
def procSentences : List (List Char) → List (List Char)
  | [] => []
  | [cur] => if pyStrip cur = [] then [] else [cur]
  | cur :: nxt :: rest2 =>
    if pyStrip cur = [] then procSentences (nxt :: rest2)
    else if pyStrip nxt = [] then (cur ++ nxt) :: procSentences rest2
    else cur :: procSentences (nxt :: rest2)

/-- `extract_sentences` of `_chunk_extraction.py`: regex split, whitespace
absorption, then a final filter that keeps the stripped non-empty pieces. -/
def extract_sentences (text : List Char) : List (List Char) :=
  (procSentences (reSplit text)).filterMap fun s =>
    if pyStrip s = [] then none else some (pyStrip s)

/-- The search loop of `_extract_sentence_offsets`: locate each sentence in
`text` starting from the current position, record `(start, start + len)`,
and advance past it.  Offsets are Python ints, hence `Int`. -/
def offsetsAux (text : List Char) : List (List Char) → Nat → List (Int × Int)
  | [], _ => []
  | s :: rest, pos =>
    if pyStrip s = [] then offsetsAux text rest pos
    else
      match findSub s (text.drop pos) with
      | none => offsetsAux text rest pos
      | some j =>
        (((pos + j : Nat) : Int), ((pos + j + s.length : Nat) : Int)) ::
          offsetsAux text rest (pos + j + s.length)

/-- `DefaultChunkingService._extract_sentence_offsets`. -/
def extract_sentence_offsets (text : List Char) : List (Int × Int) :=
  offsetsAux text (extract_sentences text) 0

/-- `DefaultChunkingService._extract_sentence_offsets_with_base`. -/
def extract_sentence_offsets_with_base (text : List Char) (base : Int) : List (Int × Int) :=
  (extract_sentence_offsets text).map fun p => (base + p.1, base + p.2)

/-- A split or merged chunk with its `(text, start_offset, end_offset)`. -/
abbrev Split : Type := List Char × Int × Int

/-- The `text.find(sentence, current_offset)` loop of
`_split_text_with_offsets`, producing `(sentence, start, end)` triples. -/
def splitsAux (text : List Char) : List (List Char) → Nat → List Split
  | [], _ => []
  | s :: rest, pos =>
    if pyStrip s = [] then splitsAux text rest pos
    else
      match findSub s (text.drop pos) with
      | none => splitsAux text rest pos
      | some j =>
        (s, ((pos + j : Nat) : Int), ((pos + j + s.length : Nat) : Int)) ::
          splitsAux text rest (pos + j + s.length)

/-- Closing the current chunk in `_merge_splits_with_offsets`: the chunk
text is the concatenation of the collected split texts, its span is
`(first split start, last split end)`. -/
def flushChunk (cur : List Split) : Split :=
  ((cur.map Prod.fst).flatten, (cur.headD ([], 0, 0)).2.1, (cur.getLastD ([], 0, 0)).2.2)

/-- The greedy merge loop of `_merge_splits_with_offsets`.  The size guard
is Python int arithmetic (`chunk_size - overlap_adjustment` may be
negative), hence computed in `Int`. -/
def mergeAux (chunkSize chunkOverlap : Nat) :
    List Split → List Split → Nat → List Split
  | [], cur, _ => if cur.isEmpty then [] else [flushChunk cur]
  | sp :: rest, cur, curLen =>
    let adj : Int := if cur.isEmpty then 0 else (chunkOverlap : Int)
    if (curLen : Int) + (sp.1.length : Int) ≤ (chunkSize : Int) - adj then
      mergeAux chunkSize chunkOverlap rest (cur ++ [sp]) (curLen + sp.1.length)
    else if cur.isEmpty then
      mergeAux chunkSize chunkOverlap rest [sp] sp.1.length
    else
      flushChunk cur :: mergeAux chunkSize chunkOverlap rest [sp] sp.1.length

/-- `DefaultChunkingService._enforce_overlap_with_offsets`: every chunk
after the first borrows the trailing `min(chunk_overlap, len(prev))`
characters of the (pre-overlap) previous chunk text; Python `s[-0:]` is
the whole string, hence the `osize = 0` branch. -/
def enforce_overlap_with_offsets (chunkOverlap : Nat) (chunks : List Split) : List Split :=
  (List.range chunks.length).map fun i =>
    let cur := chunks.getD i ([], 0, 0)
    if i = 0 then cur
    else
      let prev := (chunks.getD (i - 1) ([], 0, 0)).1
      let osize := min chunkOverlap prev.length
      let otext := if osize = 0 then prev else prev.drop (prev.length - osize)
      let newText := otext ++ cur.1
      (newText, cur.2.2 - (newText.length : Int), cur.2.2)

/-- `DefaultChunkingService._merge_splits_with_offsets`. -/
def merge_splits_with_offsets (chunkSize chunkOverlap : Nat) (splits : List Split) : List Split :=
  if splits.isEmpty then []
  else
    let merged := mergeAux chunkSize chunkOverlap splits [] 0
    if 0 < chunkOverlap then enforce_overlap_with_offsets chunkOverlap merged else merged

/-- `DefaultChunkingService._split_text_with_offsets`. -/
def split_text_with_offsets (chunkSize chunkOverlap : Nat) (text : List Char) : List Split :=
  merge_splits_with_offsets chunkSize chunkOverlap
    (splitsAux text (extract_sentences text) 0)

/-- The sanitisation step of `_extract_chunks`:
`re.sub(r"[\x00-\x1f\x7f-\x9f]", "", data.data)`. -/
def sanitize (text : List Char) : List Char :=
  text.filter fun c => !(c.toNat ≤ 0x1f || (0x7f ≤ c.toNat && c.toNat ≤ 0x9f))

/-- Modelled from the spec: the `TDocument` record of `fast_graphrag._types`
(not under `src/`): raw text plus caller-owned metadata. -/
structure TDocument (μ : Type) where
  data : List Char
  metadata : μ
deriving DecidableEq, Repr

/-- Modelled from the spec: the `TCitation` record of `fast_graphrag._types`
(not under `src/`): document-space offsets, per-sentence spans, and the
lazily populated per-sentence score table. -/
structure TCitation where
  start_offset : Int
  end_offset : Int
  sentence_offsets : List (Int × Int)
  sentence_scores : Option (List (Nat × ℚ))
deriving DecidableEq, Repr

/-- Modelled from the spec: the `TChunk` record of `fast_graphrag._types`
(not under `src/`): content hash id, chunk text, shared metadata and the
citation. -/
structure TChunk (μ : Type) where
  id : Nat
  content : List Char
  metadata : μ
  citation : Option TCitation
deriving DecidableEq, Repr

/-- `DefaultChunkingService._extract_chunks`.  `hashFn` stands for
`xxhash.xxh3_64_intdigest`; `chunkSize` / `chunkOverlap` are the
character budgets `_chunk_size` / `_chunk_overlap`. -/
def extract_chunks {μ : Type} (hashFn : List Char → Nat) (chunkSize chunkOverlap : Nat)
    (doc : TDocument μ) : List (TChunk μ) :=
  let cleaned := sanitize doc.data
  if cleaned.length ≤ chunkSize then
    [⟨hashFn cleaned, cleaned, doc.metadata,
      some ⟨0, (cleaned.length : Int), extract_sentence_offsets cleaned, none⟩⟩]
  else
    (split_text_with_offsets chunkSize chunkOverlap cleaned).map fun t =>
      ⟨hashFn t.1, t.1, doc.metadata,
        some ⟨t.2.1, t.2.2, extract_sentence_offsets_with_base t.1 t.2.1, none⟩⟩

/-- The per-document deduplication loop of `DefaultChunkingService.extract`
(`unique_chunk_ids` is the `seen` accumulator). -/
def dedupeAux {μ : Type} (seen : List Nat) : List (TChunk μ) → List (TChunk μ)
  | [] => []
  | c :: rest =>
    if c.id ∈ seen then dedupeAux seen rest
    else c :: dedupeAux (c.id :: seen) rest

/-- `DefaultChunkingService.extract`: per document, extract chunks and drop
chunks whose content id was already seen in this document's list. -/
def extract {μ : Type} (hashFn : List Char → Nat) (chunkSize chunkOverlap : Nat)
    (docs : List (TDocument μ)) : List (List (TChunk μ)) :=
  docs.map fun d => dedupeAux [] (extract_chunks hashFn chunkSize chunkOverlap d)

/-- The deduplicator as worded by the spec (§4.4): keep the first chunk
with each content id, drop later ones, preserve order.  Used only to state
the refinement in claim C7. -/
def dedupe_spec {μ : Type} : List (TChunk μ) → List (TChunk μ)
  | [] => []
  | c :: rest => c :: dedupe_spec (rest.filter fun c2 => decide (c2.id ≠ c.id))
termination_by l => l.length
decreasing_by
  simp only [List.length_cons]
  exact Nat.lt_succ_of_le (List.length_filter_le _ _)

/-- Python `str.split()` (no separator): whitespace-delimited tokens,
empties dropped.  `acc` is the current token, reversed. -/
def splitWsAux : List Char → List Char → List (List Char)
  | [], acc => if acc.isEmpty then [] else [acc.reverse]
  | c :: rest, acc =>
    if isPySpace c then
      if acc.isEmpty then splitWsAux rest [] else acc.reverse :: splitWsAux rest []
    else splitWsAux rest (c :: acc)

/-- Python `s.split()`. -/
def pySplitWs (s : List Char) : List (List Char) := splitWsAux s []

/-- Python `set(s.lower().split())`: the case-folded whitespace-delimited
token set of a string (`Char.toLower` is exact on ASCII). -/
def tokenSet (s : List Char) : Finset (List Char) :=
  (pySplitWs (s.map Char.toLower)).toFinset

/-- The per-sentence score of `score_sentences_in_chunk`: weighted sum of
term overlap, position and length scores with weights 0.6 / 0.3 / 0.1. -/
def scoreSentence (qTerms : Finset (List Char)) (i total : Nat) (sentence : List Char) : ℚ :=
  let sTerms := tokenSet sentence
  let termOverlapScore : ℚ :=
    if qTerms.Nonempty ∧ sTerms.Nonempty then
      ((qTerms ∩ sTerms).card : ℚ) / (qTerms.card : ℚ)
    else 0
  let positionScore : ℚ := 1 - (i : ℚ) / ((max 1 total : Nat) : ℚ)
  let lengthScore : ℚ := 1 - min 1 ((((sentence.length : Int) - 100).natAbs : ℚ) / 100)
  (6 / 10 : ℚ) * termOverlapScore + (3 / 10 : ℚ) * positionScore + (1 / 10 : ℚ) * lengthScore

/-- The scoring loop of `score_sentences_in_chunk`: clip each sentence span
to chunk-local coordinates, skip invalid or blank slices, and record the
score keyed by the sentence index. -/
def scoresAux (content : List Char) (so : Int) (qTerms : Finset (List Char)) (total : Nat) :
    Nat → List (Int × Int) → List (Nat × ℚ)
  | _, [] => []
  | i, (st, en) :: rest =>
    let relStart : Int := max 0 (st - so)
    let relEnd : Int := min (content.length : Int) (en - so)
    if relStart < relEnd ∧ relEnd ≤ (content.length : Int) then
      let sentence := pyStrip ((content.drop relStart.toNat).take (relEnd - relStart).toNat)
      if sentence.isEmpty then scoresAux content so qTerms total (i + 1) rest
      else (i, scoreSentence qTerms i total sentence) :: scoresAux content so qTerms total (i + 1) rest
    else scoresAux content so qTerms total (i + 1) rest

/-- `score_sentences_in_chunk` of `_scoring_utils.py`, with the in-place
mutation of `citation.sentence_scores` modelled as returning the updated
chunk.  The score table is only written when it is non-empty. -/
def score_sentences_in_chunk {μ : Type} (c : TChunk μ) (query : List Char) : TChunk μ :=
  match c.citation with
  | none => c
  | some cit =>
    if cit.sentence_offsets.isEmpty then c
    else
      let qTerms := tokenSet query
      let scores :=
        scoresAux c.content cit.start_offset qTerms cit.sentence_offsets.length 0
          cit.sentence_offsets
      if scores.isEmpty then c
      else
        ⟨c.id, c.content, c.metadata,
          some ⟨cit.start_offset, cit.end_offset, cit.sentence_offsets, some scores⟩⟩

/-- The ordering invariant claimed for `sentence_offsets`: every span is
non-degenerate and consecutive spans do not overlap. -/
def offsetsOrdered (l : List (Int × Int)) : Prop :=
  (∀ pr ∈ l, pr.1 < pr.2) ∧ l.Chain' fun a b => a.2 ≤ b.1

/-! ## Claim theorems -/

/-- Claim C1 (code bug witness).  With overlap disabled, extraction of the
9-character document `"A b. C d."` under a chunk budget of 8 characters
produces a single chunk whose content is `"A b.C d."` — the whitespace
between the two merged sentences is dropped — while its citation spans
`[0, 9)`; the slice of the original document over that span is
`"A b. C d."`, which differs from the chunk content.  This refutes the
offset-fidelity property `original[start:end] == content`. -/
theorem c1_offset_fidelity_violated :
    extract_chunks (fun _ => 0) 8 0 (⟨"A b. C d.".toList, ()⟩ : TDocument Unit) =
      [⟨0, "A b.C d.".toList, (), some ⟨0, 9, [(0, 8)], none⟩⟩] ∧
    pySlice "A b. C d.".toList 0 9 ≠ "A b.C d.".toList := by
  decide

/-- Claim C3 counterexample.  Sanitisation does not preserve meaningful
whitespace: the newline of `"a\nb"` falls in the stripped range
`[\x00-\x1f]` and is removed. -/
theorem c3_newline_not_preserved :
    '\n' ∈ ['a', '\n', 'b'] ∧ sanitize ['a', '\n', 'b'] = ['a', 'b'] ∧
    '\n' ∉ sanitize ['a', '\n', 'b'] := by
  decide

/-- Claim C3 (amended).  `sanitize` never fails and removes exactly the
characters with code points in `[0x00, 0x1f] ∪ [0x7f, 0x9f]` — including
tab, newline and carriage return — keeping all other characters of the
input in order (the output is a sublist of the input). -/
theorem c3_sanitize_characterisation (text : List Char) :
    (sanitize text).Sublist text ∧
    ∀ c : Char, c ∈ sanitize text ↔
      c ∈ text ∧ ¬(c.toNat ≤ 0x1f ∨ (0x7f ≤ c.toNat ∧ c.toNat ≤ 0x9f)) := by
  refine ⟨List.filter_sublist text, fun c => ?_⟩
  simp only [sanitize, List.mem_filter, Bool.not_eq_true', Bool.or_eq_false_iff,
    Bool.and_eq_false_iff, decide_eq_false_iff_not, not_or, not_and_or, not_le]

/-- Claim C5 counterexample.  On the text of concrete scenario 1,
`_extract_sentence_offsets` does not return the spans claimed by the
spec: the second and third sentence do not start at the end of the
previous span (the inter-sentence spaces are skipped). -/
theorem c5_spans_counterexample :
    extract_sentence_offsets
        "This is a sentence. This is another sentence. And a third one!".toList ≠
      [(0, 19), (19, 44), (44, 60)] := by
  decide

/-- Claim C5 (amended).  On the text of concrete scenario 1, sentence
boundary detection yields exactly the spans
`[(0, 19), (20, 45), (46, 62)]`: each span is the exact position of one
sentence in the document, with the whitespace separating sentences
belonging to no span. -/
theorem c5_spans_actual :
    extract_sentence_offsets
        "This is a sentence. This is another sentence. And a third one!".toList =
      [(0, 19), (20, 45), (46, 62)] := by
  decide

/-- Claim C2.  A document whose sanitised content fits in the chunk
budget yields exactly one chunk: its content is the whole (sanitised)
document text and its citation spans `(0, len)`; no splitting or overlap
is applied. -/
theorem c2_single_chunk {μ : Type} (hashFn : List Char → Nat)
    (chunkSize chunkOverlap : Nat) (doc : TDocument μ)
    (h : (sanitize doc.data).length ≤ chunkSize) :
    extract_chunks hashFn chunkSize chunkOverlap doc =
      [⟨hashFn (sanitize doc.data), sanitize doc.data, doc.metadata,
        some ⟨0, ((sanitize doc.data).length : Int),
          extract_sentence_offsets (sanitize doc.data), none⟩⟩] := by
  simp only [extract_chunks]
  rw [if_pos h]

/-- Witness for C2 at the concrete document `"Hi."` with budget 100. -/
theorem c2_single_chunk_witness :
    (sanitize "Hi.".toList).length ≤ 100 ∧
    extract_chunks (fun _ => 7) 100 5 (⟨"Hi.".toList, ()⟩ : TDocument Unit) =
      [⟨7, sanitize "Hi.".toList, (),
        some ⟨0, ((sanitize "Hi.".toList).length : Int),
          extract_sentence_offsets (sanitize "Hi.".toList), none⟩⟩] :=
  ⟨by decide, c2_single_chunk (fun _ => 7) 100 5 ⟨"Hi.".toList, ()⟩ (by decide)⟩

/-- Claim C10.  `score_sentences_in_chunk` changes at most
`citation.sentence_scores`: id, content, metadata and the citation's
offsets and sentence spans are untouched, and either the chunk is
returned entirely unchanged (in particular whenever the citation is
absent, the sentence spans are empty, or no sentence receives a score)
or only a non-empty score table is written. -/
theorem c10_scoring_frame {μ : Type} (c : TChunk μ) (query : List Char) :
    (score_sentences_in_chunk c query).id = c.id ∧
    (score_sentences_in_chunk c query).content = c.content ∧
    (score_sentences_in_chunk c query).metadata = c.metadata ∧
    ((score_sentences_in_chunk c query).citation.map fun ct =>
        (ct.start_offset, ct.end_offset, ct.sentence_offsets)) =
      (c.citation.map fun ct => (ct.start_offset, ct.end_offset, ct.sentence_offsets)) ∧
    (score_sentences_in_chunk c query = c ∨
      ∃ cit scores, c.citation = some cit ∧ scores ≠ [] ∧
        score_sentences_in_chunk c query =
          ⟨c.id, c.content, c.metadata,
            some ⟨cit.start_offset, cit.end_offset, cit.sentence_offsets, some scores⟩⟩) := by
  rcases hcit : c.citation with _ | cit
  · have hres : score_sentences_in_chunk c query = c := by
      unfold score_sentences_in_chunk
      rw [hcit]
    exact ⟨by rw [hres], by rw [hres], by rw [hres], by rw [hres, hcit], Or.inl hres⟩
  · by_cases he : cit.sentence_offsets.isEmpty
    · have hres : score_sentences_in_chunk c query = c := by
        unfold score_sentences_in_chunk
        rw [hcit]
        simp [he]
      exact ⟨by rw [hres], by rw [hres], by rw [hres], by rw [hres, hcit], Or.inl hres⟩
    · by_cases hs :
        (scoresAux c.content cit.start_offset (tokenSet query) cit.sentence_offsets.length 0
          cit.sentence_offsets).isEmpty
      · have hres : score_sentences_in_chunk c query = c := by
          unfold score_sentences_in_chunk
          rw [hcit]
          simp [he, hs]
        exact ⟨by rw [hres], by rw [hres], by rw [hres], by rw [hres, hcit], Or.inl hres⟩
      · have hres : score_sentences_in_chunk c query =
            ⟨c.id, c.content, c.metadata,
              some ⟨cit.start_offset, cit.end_offset, cit.sentence_offsets,
                some (scoresAux c.content cit.start_offset (tokenSet query)
                  cit.sentence_offsets.length 0 cit.sentence_offsets)⟩⟩ := by
          unfold score_sentences_in_chunk
          rw [hcit]
          simp [he, hs]
        refine ⟨by rw [hres], by rw [hres], by rw [hres], by rw [hres]; rfl, ?_⟩
        exact Or.inr ⟨cit, _, rfl, by intro hnil; exact hs (by simp [hnil]), hres⟩

/-- Claim C9.  Scoring is strictly monotone in query-term overlap: at the
same index position and for sentences of equal character length, a
sentence containing at least one query term scores strictly higher than
one containing none. -/
theorem c9_scoring_monotone (query s1 s2 : List Char) (i total : Nat)
    (hlen : s1.length = s2.length)
    (h1 : ∃ t ∈ tokenSet query, t ∈ tokenSet s1)
    (h2 : ∀ t ∈ tokenSet query, t ∉ tokenSet s2) :
    scoreSentence (tokenSet query) i total s2 < scoreSentence (tokenSet query) i total s1 := by
  obtain ⟨t, htq, hts⟩ := h1
  have hQ : (tokenSet query).Nonempty := ⟨t, htq⟩
  have hS1 : (tokenSet s1).Nonempty := ⟨t, hts⟩
  have hcard : 0 < (tokenSet query ∩ tokenSet s1).card :=
    Finset.card_pos.mpr ⟨t, Finset.mem_inter.mpr ⟨htq, hts⟩⟩
  have hQcard : 0 < (tokenSet query).card := Finset.card_pos.mpr hQ
  have ht1pos :
      (0 : ℚ) < ((tokenSet query ∩ tokenSet s1).card : ℚ) / ((tokenSet query).card : ℚ) := by
    apply div_pos
    · exact_mod_cast hcard
    · exact_mod_cast hQcard
  have h2inter : tokenSet query ∩ tokenSet s2 = ∅ := by
    refine Finset.eq_empty_iff_forall_not_mem.mpr fun x hx => ?_
    rcases Finset.mem_inter.mp hx with ⟨hxq, hxs⟩
    exact h2 x hxq hxs
  have hposS1 : (tokenSet query).Nonempty ∧ (tokenSet s1).Nonempty := ⟨hQ, hS1⟩
  simp only [scoreSentence]
  rw [if_pos hposS1, hlen]
  by_cases hS2 : (tokenSet s2).Nonempty
  · have hposS2 : (tokenSet query).Nonempty ∧ (tokenSet s2).Nonempty := ⟨hQ, hS2⟩
    rw [if_pos hposS2, h2inter]
    simp only [Finset.card_empty, Nat.cast_zero, zero_div]
    linarith
  · have hnegS2 : ¬((tokenSet query).Nonempty ∧ (tokenSet s2).Nonempty) := fun hc => hS2 hc.2
    rw [if_neg hnegS2]
    linarith

/-- Witness for C9: query `"sentence"`, first sentence `"a sentence"`
(contains the term), second `"b stntence"` (same length, no query term). -/
theorem c9_scoring_monotone_witness :
    scoreSentence (tokenSet "sentence".toList) 0 2 "b stntence".toList <
      scoreSentence (tokenSet "sentence".toList) 0 2 "a sentence".toList :=
  c9_scoring_monotone "sentence".toList "a sentence".toList "b stntence".toList 0 2
    (by decide) ⟨"sentence".toList, by decide, by decide⟩ (by decide)

/-- Elementwise description of `enforce_overlap_with_offsets` for non-first
positions, in terms of the input list's adjacent entries. -/
theorem enforceOverlapGet (chunkOverlap : Nat) (chunks : List Split) (i : Nat)
    (prev cur : Split) (hp : chunks[i]? = some prev) (hc : chunks[i + 1]? = some cur) :
    (enforce_overlap_with_offsets chunkOverlap chunks)[i + 1]? =
      some
        (let osize := min chunkOverlap prev.1.length
         let otext := if osize = 0 then prev.1 else prev.1.drop (prev.1.length - osize)
         let newText := otext ++ cur.1
         (newText, cur.2.2 - (newText.length : Int), cur.2.2)) := by
  have hlen : i + 1 < chunks.length := by
    by_contra hge
    rw [List.getElem?_eq_none (Nat.le_of_not_lt hge)] at hc
    exact Option.noConfusion hc
  unfold enforce_overlap_with_offsets
  rw [List.getElem?_map, List.getElem?_range hlen]
  simp only [Option.map_some', Nat.add_sub_cancel, if_neg (Nat.succ_ne_zero i)]
  rw [List.getD_eq_getElem?_getD, List.getD_eq_getElem?_getD, hp, hc]
  rfl

/-- Claim C6.  With a positive configured overlap: the first chunk passes
through `_enforce_overlap_with_offsets` unchanged, the output has the
same length as the input, and every later chunk is rebuilt as the
trailing `min(overlap, len(prev))` characters of the (pre-overlap)
previous chunk's text prepended to its own text — so the borrowed length
is exactly `min(overlap, len(prev))`, never more — with its start offset
pulled back to `end_offset - len(new_text)`. -/
theorem c6_overlap_enforcement (chunkOverlap : Nat) (hco : 0 < chunkOverlap)
    (chunks : List Split) :
    (enforce_overlap_with_offsets chunkOverlap chunks).length = chunks.length ∧
    (enforce_overlap_with_offsets chunkOverlap chunks).head? = chunks.head? ∧
    ∀ i prev cur, chunks[i]? = some prev → chunks[i + 1]? = some cur →
      (prev.1.drop (prev.1.length - min chunkOverlap prev.1.length)).length =
          min chunkOverlap prev.1.length ∧
      (enforce_overlap_with_offsets chunkOverlap chunks)[i + 1]? =
        some
          (prev.1.drop (prev.1.length - min chunkOverlap prev.1.length) ++ cur.1,
           cur.2.2 -
             ((prev.1.drop (prev.1.length - min chunkOverlap prev.1.length) ++ cur.1).length : Int),
           cur.2.2) := by
  refine ⟨?_, ?_, ?_⟩
  · unfold enforce_overlap_with_offsets
    rw [List.length_map, List.length_range]
  · unfold enforce_overlap_with_offsets
    cases chunks with
    | nil => rfl
    | cons c0 rest =>
      rw [List.length_cons, List.range_succ_eq_map]
      simp [List.getD_cons_zero]
  · intro i prev cur hp hc
    have hdrop : (prev.1.drop (prev.1.length - min chunkOverlap prev.1.length)).length =
        min chunkOverlap prev.1.length := by
      rw [List.length_drop]
      omega
    refine ⟨hdrop, ?_⟩
    rw [enforceOverlapGet chunkOverlap chunks i prev cur hp hc]
    rcases hp1 : prev.1 with _ | ⟨c, cs⟩
    · simp [hp1]
    · have hmin : min chunkOverlap (c :: cs).length ≠ 0 := by
        simp only [List.length_cons]
        omega
      simp only [if_neg hmin]

/-- Witness for C6 at overlap 2 and chunks `("abcd", 0, 4)`, `("efg", 5, 8)`:
the second output chunk is `("cdefg", 3, 8)`. -/
theorem c6_overlap_enforcement_witness :
    (enforce_overlap_with_offsets 2
        [("abcd".toList, 0, 4), ("efg".toList, 5, 8)])[1]? =
      some ("cdefg".toList, 3, 8) := by
  have h := (c6_overlap_enforcement 2 (by decide)
    [("abcd".toList, 0, 4), ("efg".toList, 5, 8)]).2.2 0 _ _ rfl rfl
  exact h.2.trans (by decide)

/-- `dedupeAux` with an arbitrary seen-set equals the spec deduplicator on
the not-yet-seen part of the list. -/
theorem dedupeAux_eq_spec {μ : Type} :
    ∀ (l : List (TChunk μ)) (seen : List Nat),
      dedupeAux seen l = dedupe_spec (l.filter fun c => decide (c.id ∉ seen))
  | [], _ => by simp [dedupeAux, dedupe_spec]
  | c :: rest, seen => by
    by_cases h : c.id ∈ seen
    · rw [dedupeAux, if_pos h, List.filter_cons_of_neg (by simpa using h)]
      exact dedupeAux_eq_spec rest seen
    · rw [dedupeAux, if_neg h, List.filter_cons_of_pos (by simpa using h),
        dedupe_spec, dedupeAux_eq_spec rest (c.id :: seen), List.filter_filter]
      have hpred :
          (rest.filter fun c2 => decide (c2.id ∉ c.id :: seen)) =
            rest.filter fun a => decide (a.id ≠ c.id) && decide (a.id ∉ seen) :=
        List.filter_congr fun x _ => by
          by_cases hx1 : x.id = c.id <;> by_cases hx2 : x.id ∈ seen <;>
            simp [List.mem_cons, hx1, hx2]
      rw [hpred]

/-- Claim C7.  Deduplication is scoped to a single document's extraction:
`extract` maps each document independently to its own deduplicated chunk
list, where deduplication keeps the first chunk with each content id in
place, drops later chunks with the same id, and preserves order (that is
exactly `dedupe_spec`).  Identical content in two different documents is
therefore retained once per document, each with its own citation and
metadata. -/
theorem c7_dedup_scope {μ : Type} (hashFn : List Char → Nat)
    (chunkSize chunkOverlap : Nat) (docs : List (TDocument μ)) :
    extract hashFn chunkSize chunkOverlap docs =
      docs.map fun d => dedupe_spec (extract_chunks hashFn chunkSize chunkOverlap d) := by
  unfold extract
  refine List.map_congr_left fun d _ => ?_
  rw [dedupeAux_eq_spec]
  congr 1
  simp

/-! ### Helper lemmas about `pyStrip`, `findSub` and the boundary scanner -/

theorem exists_head?_of_ne_nil {α : Type} {l : List α} (h : l ≠ []) :
    ∃ c, l.head? = some c := by
  cases l with
  | nil => exact absurd rfl h
  | cons a t => exact ⟨a, rfl⟩

theorem dropWhile_head?_false (p : Char → Bool) :
    ∀ (l : List Char) {c : Char}, (l.dropWhile p).head? = some c → p c = false
  | [], c => by simp
  | a :: t, c => by
    rw [List.dropWhile_cons]
    by_cases h : p a
    · rw [if_pos h]
      exact dropWhile_head?_false p t
    · rw [if_neg h]
      intro hc
      obtain rfl : a = c := by simpa using hc
      exact (Bool.not_eq_true (p a)).mp h

theorem dropWhile_ne_nil_of_mem (p : Char → Bool) {l : List Char} {c : Char}
    (hc : c ∈ l) (hp : p c = false) : l.dropWhile p ≠ [] := by
  intro h
  have := List.dropWhile_eq_nil_iff.mp h c hc
  rw [hp] at this
  exact Bool.noConfusion this

theorem head?_append_left {α : Type} {l₁ l₂ : List α} (h : l₁ ≠ []) :
    (l₁ ++ l₂).head? = l₁.head? := by
  cases l₁ with
  | nil => exact absurd rfl h
  | cons a t => rfl

theorem getLast?_append_right {α : Type} {l₁ l₂ : List α} (h : l₂ ≠ []) :
    (l₁ ++ l₂).getLast? = l₂.getLast? := by
  rw [← List.head?_reverse, List.reverse_append,
    head?_append_left (by simpa [List.reverse_eq_nil_iff] using h), List.head?_reverse]

theorem pyStrip_head?_false {l : List Char} (h : pyStrip l ≠ []) :
    ∃ c, (pyStrip l).head? = some c ∧ isPySpace c = false := by
  set u := l.dropWhile isPySpace with hu
  set v := u.reverse.dropWhile isPySpace with hv
  have hps : pyStrip l = v.reverse := rfl
  have hvne : v ≠ [] := by
    intro hnil
    exact h (by rw [hps, hnil]; rfl)
  have hune : u ≠ [] := by
    intro hnil
    apply hvne
    rw [hv, hnil]
    rfl
  obtain ⟨c0, hc0⟩ := exists_head?_of_ne_nil hune
  have hc0f : isPySpace c0 = false := dropWhile_head?_false isPySpace l hc0
  refine ⟨c0, ?_, hc0f⟩
  rw [hps, List.head?_reverse]
  have hdecomp : u.reverse.takeWhile isPySpace ++ v = u.reverse :=
    List.takeWhile_append_dropWhile isPySpace u.reverse
  calc v.getLast? = (u.reverse.takeWhile isPySpace ++ v).getLast? :=
        (getLast?_append_right hvne).symm
    _ = u.reverse.getLast? := by rw [hdecomp]
    _ = u.head? := List.getLast?_reverse u
    _ = some c0 := hc0

theorem pyStrip_getLast?_false {l : List Char} (h : pyStrip l ≠ []) :
    ∃ c, (pyStrip l).getLast? = some c ∧ isPySpace c = false := by
  set v := (l.dropWhile isPySpace).reverse.dropWhile isPySpace with hv
  have hps : pyStrip l = v.reverse := rfl
  have hvne : v ≠ [] := by
    intro hnil
    exact h (by rw [hps, hnil]; rfl)
  obtain ⟨c0, hc0⟩ := exists_head?_of_ne_nil hvne
  exact ⟨c0, by rw [hps, List.getLast?_reverse]; exact hc0,
    dropWhile_head?_false isPySpace _ hc0⟩

theorem dropWhile_eq_self_of_head (p : Char → Bool) {l : List Char}
    (h : ∀ c, l.head? = some c → p c = false) : l.dropWhile p = l := by
  cases l with
  | nil => rfl
  | cons a t =>
    rw [List.dropWhile_cons, if_neg]
    rw [h a rfl]
    exact Bool.noConfusion

theorem pyStrip_idem (l : List Char) : pyStrip (pyStrip l) = pyStrip l := by
  by_cases h : pyStrip l = []
  · rw [h]
    rfl
  · show ((((pyStrip l).dropWhile isPySpace).reverse.dropWhile isPySpace).reverse) = pyStrip l
    have h1 : (pyStrip l).dropWhile isPySpace = pyStrip l := by
      refine dropWhile_eq_self_of_head isPySpace fun c hc => ?_
      obtain ⟨c0, hc0, hf⟩ := pyStrip_head?_false h
      rw [hc0] at hc
      obtain rfl : c0 = c := by simpa using hc
      exact hf
    rw [h1]
    have h2 : (pyStrip l).reverse.dropWhile isPySpace = (pyStrip l).reverse := by
      refine dropWhile_eq_self_of_head isPySpace fun c hc => ?_
      rw [List.head?_reverse] at hc
      obtain ⟨c0, hc0, hf⟩ := pyStrip_getLast?_false h
      rw [hc0] at hc
      obtain rfl : c0 = c := by simpa using hc
      exact hf
    rw [h2, List.reverse_reverse]

theorem pyStrip_eq_nil_of_all {l : List Char} (h : ∀ c ∈ l, isPySpace c = true) :
    pyStrip l = [] := by
  show ((l.dropWhile isPySpace).reverse.dropWhile isPySpace).reverse = []
  rw [List.dropWhile_eq_nil_iff.mpr h]
  rfl

theorem pyStrip_ne_nil_of_mem {l : List Char} {c : Char} (hc : c ∈ l)
    (hf : isPySpace c = false) : pyStrip l ≠ [] := by
  set u := l.dropWhile isPySpace with hu
  have hune : u ≠ [] := dropWhile_ne_nil_of_mem isPySpace hc hf
  obtain ⟨c0, hc0⟩ := exists_head?_of_ne_nil hune
  have hc0f : isPySpace c0 = false := dropWhile_head?_false isPySpace l hc0
  have hc0mem : c0 ∈ u.reverse := List.mem_reverse.mpr (List.mem_of_mem_head? hc0)
  have hvne : u.reverse.dropWhile isPySpace ≠ [] :=
    dropWhile_ne_nil_of_mem isPySpace hc0mem hc0f
  show ((l.dropWhile isPySpace).reverse.dropWhile isPySpace).reverse ≠ []
  simpa [List.reverse_eq_nil_iff] using hvne

/-- Every text splits as leading whitespace, its stripped core, and
trailing whitespace. -/
theorem text_decomp (l : List Char) :
    l = l.takeWhile isPySpace ++
      (pyStrip l ++ ((l.dropWhile isPySpace).reverse.takeWhile isPySpace).reverse) := by
  conv_lhs => rw [← List.takeWhile_append_dropWhile isPySpace l]
  congr 1
  conv_lhs => rw [← List.reverse_reverse (l.dropWhile isPySpace),
    ← List.takeWhile_append_dropWhile isPySpace (l.dropWhile isPySpace).reverse]
  rw [List.reverse_append]
  rfl

theorem leadsWith_append : ∀ (a b : List Char), leadsWith a (a ++ b) = true
  | [], _ => rfl
  | c :: t, b => by
    show (c == c && leadsWith t (t ++ b)) = true
    rw [beq_self_eq_true, leadsWith_append t b]
    rfl

theorem findSub_ws_lead :
    ∀ (lead : List Char), (∀ c ∈ lead, isPySpace c = true) →
      ∀ (core rest : List Char), core ≠ [] →
        (∀ c, core.head? = some c → isPySpace c = false) →
        findSub core (lead ++ (core ++ rest)) = some lead.length
  | [], _, core, rest, hne, _ => by
    cases core with
    | nil => exact absurd rfl hne
    | cons c t =>
      rw [List.nil_append, List.cons_append, findSub,
        if_pos (by rw [← List.cons_append]; exact leadsWith_append (c :: t) rest)]
      rfl
  | d :: lead, hws, core, rest, hne, hhead => by
    cases core with
    | nil => exact absurd rfl hne
    | cons c t =>
      have hd : isPySpace d = true := hws d (List.mem_cons_self d lead)
      have hcf : isPySpace c = false := hhead c rfl
      have hneq : (c == d) = false := by
        refine beq_eq_false_iff_ne.mpr fun hcd => ?_
        rw [hcd, hd] at hcf
        exact Bool.noConfusion hcf
      rw [List.cons_append, findSub, if_neg, findSub_ws_lead lead
        (fun x hx => hws x (List.mem_cons_of_mem d hx)) (c :: t) rest hne hhead]
      · rfl
      · show ¬(c == d && leadsWith t (lead ++ ((c :: t) ++ rest))) = true
        rw [hneq]
        exact Bool.noConfusion

theorem isPunct_false_of_space {c : Char} (h : isPySpace c = true) : isPunct c = false := by
  cases hb : isPunct c
  · rfl
  · exfalso
    simp only [isPunct, Bool.or_eq_true, beq_iff_eq] at hb
    rcases hb with ((((((rfl | rfl) | rfl) | rfl) | rfl) | rfl) | rfl) <;>
      exact absurd h (by decide)

theorem boundaryOk_false_of_no_punct {text : List Char}
    (hnp : ∀ c ∈ text, isPunct c = false) {q : Nat} (hq : q ≤ text.length) :
    boundaryOk text q = false := by
  cases q with
  | zero => rfl
  | succ n =>
    have hlt : n < text.length := by omega
    have hget : text.getD (n + 1 - 1) ' ' = text[n] := by
      rw [Nat.add_sub_cancel]
      exact List.getD_eq_getElem text ' ' hlt
    have hpf : isPunct text[n] = false := hnp text[n] (List.getElem_mem hlt)
    unfold boundaryOk
    rw [hget, hpf]
    simp

theorem findMatchAux_none_of_no_punct {text : List Char}
    (hnp : ∀ c ∈ text, isPunct c = false) :
    ∀ (fuel q : Nat), findMatchAux text q fuel = none := by
  intro fuel
  induction fuel with
  | zero => intro q; rfl
  | succ n ih =>
    intro q
    rw [findMatchAux]
    by_cases h1 : text.length < q
    · rw [if_pos h1]
    · rw [if_neg h1]
      rw [boundaryOk_false_of_no_punct hnp (Nat.le_of_not_lt h1)]
      exact ih (q + 1)

theorem reSplit_no_punct {text : List Char} (hnp : ∀ c ∈ text, isPunct c = false) :
    reSplit text = [text] := by
  have hfuel : text.length + 2 = (text.length + 1) + 1 := rfl
  show reSplitAux text 0 (text.length + 2) = [text]
  rw [hfuel, reSplitAux]
  have hnone : findMatch text 0 = none := findMatchAux_none_of_no_punct hnp _ 0
  rw [hnone]
  simp [pySlice, List.drop_zero, List.take_length]

theorem extract_sentences_no_punct {text : List Char}
    (hnp : ∀ c ∈ text, isPunct c = false) :
    extract_sentences text = if pyStrip text = [] then [] else [pyStrip text] := by
  unfold extract_sentences
  rw [reSplit_no_punct hnp]
  by_cases h : pyStrip text = []
  · rw [if_pos h]
    simp [procSentences, h]
  · rw [if_neg h]
    simp [procSentences, h]

/-- Claim C4 counterexample.  The non-blank, punctuation-free text `" a"`
yields the single span `(1, 2)` — the leading whitespace is excluded — and
not the whole-text span `(0, 2)` the claim requires. -/
theorem c4_whole_span_counterexample :
    (∃ c ∈ [' ', 'a'], isPySpace c = false) ∧
    (∀ c ∈ [' ', 'a'], isPunct c = false) ∧
    extract_sentence_offsets [' ', 'a'] ≠ [(0, 2)] := by
  decide

/-- Claim C4 (amended).  Sentence boundary detection is total and degrades
gracefully: every blank (empty or whitespace-only) text yields no spans,
and every non-blank text without boundary punctuation yields exactly one
span covering the text stripped of its leading and trailing whitespace,
namely `(w, w + len(strip(text)))` where `w` is the length of the leading
whitespace run — which is `(0, len(text))` precisely when the text neither
starts nor ends with whitespace. -/
theorem c4_blank_and_no_boundary (text : List Char) :
    ((∀ c ∈ text, isPySpace c = true) → extract_sentence_offsets text = []) ∧
    ((∃ c ∈ text, isPySpace c = false) → (∀ c ∈ text, isPunct c = false) →
      extract_sentence_offsets text =
        [(((text.takeWhile isPySpace).length : Int),
          (((text.takeWhile isPySpace).length + (pyStrip text).length : Nat) : Int))]) := by
  constructor
  · intro hws
    have hnp : ∀ c ∈ text, isPunct c = false := fun c hc =>
      isPunct_false_of_space (hws c hc)
    unfold extract_sentence_offsets
    rw [extract_sentences_no_punct hnp, if_pos (pyStrip_eq_nil_of_all hws)]
    rfl
  · rintro ⟨c, hc, hcf⟩ hnp
    have hsne : pyStrip text ≠ [] := pyStrip_ne_nil_of_mem hc hcf
    unfold extract_sentence_offsets
    rw [extract_sentences_no_punct hnp, if_neg hsne]
    rw [offsetsAux, if_neg (by rw [pyStrip_idem]; exact hsne)]
    have hhead : ∀ x, (pyStrip text).head? = some x → isPySpace x = false := by
      intro x hx
      obtain ⟨c0, hc0, hf0⟩ := pyStrip_head?_false hsne
      rw [hc0] at hx
      obtain rfl : c0 = x := by simpa using hx
      exact hf0
    have hfind : findSub (pyStrip text) (text.drop 0) =
        some (text.takeWhile isPySpace).length := by
      rw [List.drop_zero]
      nth_rewrite 2 [text_decomp text]
      exact findSub_ws_lead (text.takeWhile isPySpace)
        (fun x hx => List.mem_takeWhile_imp hx) (pyStrip text)
        (((text.dropWhile isPySpace).reverse.takeWhile isPySpace).reverse) hsne hhead
    rw [hfind]
    simp [offsetsAux, Nat.zero_add]

/-- Witness for C4: the blank text `" "` yields no spans, and the
punctuation-free text `" a"` yields the single span `(1, 2)`. -/
theorem c4_blank_and_no_boundary_witness :
    extract_sentence_offsets [' '] = [] ∧ extract_sentence_offsets [' ', 'a'] = [(1, 2)] := by
  constructor
  · exact (c4_blank_and_no_boundary [' ']).1 (by decide)
  · have h := (c4_blank_and_no_boundary [' ', 'a']).2 ⟨'a', by decide, by decide⟩ (by decide)
    exact h.trans (by decide)

/-! ### Helper lemmas for the sentence-offset ordering invariant -/

theorem offsetsAux_ordered (text : List Char) :
    ∀ (sents : List (List Char)) (pos : Nat),
      (∀ pr ∈ offsetsAux text sents pos, (pos : Int) ≤ pr.1 ∧ pr.1 < pr.2) ∧
      (offsetsAux text sents pos).Chain' (fun a b => a.2 ≤ b.1)
  | [], pos => by simp [offsetsAux]
  | s :: rest, pos => by
    rw [offsetsAux]
    by_cases hstrip : pyStrip s = []
    · rw [if_pos hstrip]
      exact offsetsAux_ordered text rest pos
    · rw [if_neg hstrip]
      cases hfind : findSub s (text.drop pos) with
      | none => exact offsetsAux_ordered text rest pos
      | some j =>
        have hsne : s ≠ [] := by
          intro h
          apply hstrip
          rw [h]
          rfl
        have hslen : 0 < s.length := List.length_pos.mpr hsne
        obtain ⟨ihb, ihc⟩ := offsetsAux_ordered text rest (pos + j + s.length)
        constructor
        · intro pr hpr
          rcases List.mem_cons.mp hpr with h | h
          · rw [h]
            constructor
            · push_cast
              omega
            · push_cast
              omega
          · obtain ⟨h1, h2⟩ := ihb pr h
            refine ⟨le_trans ?_ h1, h2⟩
            push_cast
            omega
        · rw [List.chain'_cons']
          refine ⟨fun y hy => ?_, ihc⟩
          exact (ihb y (List.mem_of_mem_head? hy)).1

theorem extract_sentence_offsets_ordered (text : List Char) :
    offsetsOrdered (extract_sentence_offsets text) := by
  obtain ⟨hb, hc⟩ := offsetsAux_ordered text (extract_sentences text) 0
  exact ⟨fun pr h => (hb pr h).2, hc⟩

theorem offsetsOrdered_map_add (b : Int) {l : List (Int × Int)} (h : offsetsOrdered l) :
    offsetsOrdered (l.map fun p => (b + p.1, b + p.2)) := by
  constructor
  · intro pr hpr
    obtain ⟨q, hq, rfl⟩ := List.mem_map.mp hpr
    have := h.1 q hq
    simpa using this
  · rw [List.chain'_map]
    refine List.Chain'.imp ?_ h.2
    intro a c hac
    simpa using hac

/-- Claim C8.  Every citation produced by extraction has strictly
ascending, pairwise non-overlapping `sentence_offsets`: each span has
`start < end` and each span's end is at most the next span's start. -/
theorem c8_sentence_offsets_ordered {μ : Type} (hashFn : List Char → Nat)
    (chunkSize chunkOverlap : Nat) (doc : TDocument μ) (ch : TChunk μ)
    (hch : ch ∈ extract_chunks hashFn chunkSize chunkOverlap doc)
    (cit : TCitation) (hcit : ch.citation = some cit) :
    offsetsOrdered cit.sentence_offsets := by
  simp only [extract_chunks] at hch
  by_cases hle : (sanitize doc.data).length ≤ chunkSize
  · rw [if_pos hle] at hch
    obtain rfl := List.mem_singleton.mp hch
    obtain rfl : _ = cit := Option.some.inj hcit
    exact extract_sentence_offsets_ordered (sanitize doc.data)
  · rw [if_neg hle] at hch
    obtain ⟨t, ht, rfl⟩ := List.mem_map.mp hch
    obtain rfl : _ = cit := Option.some.inj hcit
    show offsetsOrdered (extract_sentence_offsets_with_base t.1 t.2.1)
    exact offsetsOrdered_map_add t.2.1 (extract_sentence_offsets_ordered t.1)

/-- Witness for C8: the second chunk of the document
`"One two. Three four. Five six."` split with budget 10 and overlap 3. -/
theorem c8_sentence_offsets_ordered_witness : offsetsOrdered [((6 : Int), (20 : Int))] :=
  c8_sentence_offsets_ordered (fun _ => 1) 10 3
    ⟨"One two. Three four. Five six.".toList, ()⟩
    ⟨1, "wo.Three four.".toList, (), some ⟨6, 20, [(6, 20)], none⟩⟩
    (by decide) ⟨6, 20, [(6, 20)], none⟩ rfl

end FastGraphRAG
